import Mathlib

/-!
Verification of the per-session multi-agent coordinator of tulpa-code/tulpa,
a shallow embedding of `internal/llm/multiagent/manager.go`.

Modelling conventions:
* Go maps (`map[string]config.Agent`, `map[string]agent.Service`) are embedded
  as association lists `List (String × _)` looked up by first key match; the
  list order stands for the map's iteration order (which Go randomizes — two
  permuted lists denote the same map, and order-dependent results expose the
  code's dependence on map iteration order).
* The session store is modelled by its observable behaviour: loading yields
  `Option (String × List String)` (`none` = `sessionSvc.Get` failed), and each
  `UpdateAgent` call is recorded as a `SaveCall` value in an output trace.
* Agent workers are values of an abstract type `W`; the injected factory is a
  function `AgentCfg → Except String W`, and run dispatch is a function
  `W → String → Except String E`.
-/

namespace Tulpa

/-- The fields of `config.Agent` that the manager logic reads (identity plus
the sub-agent delegation fields from `internal/config`). -/
structure AgentCfg where
  name : String
  allowedSubagents : List String
  defaultSubagent : String
deriving Repr, DecidableEq

/-- The error values declared at the top of `manager.go`
(`ErrAgentNotFound`, `ErrAgentNotAvailable`, `ErrNoAgentsConfigured`), plus
the wrapped factory/run failures produced with `fmt.Errorf`. -/
inductive MError where
  | agentNotFound
  | agentNotAvailable
  | noAgentsConfigured
  | workerFailed (msg : String)
deriving Repr, DecidableEq

/-- One `sessionSvc.UpdateAgent(sessionID, activeAgent, historyJSON)` call,
recorded with the active agent id and the (un-marshalled) history it wrote. -/
structure SaveCall where
  active : String
  history : List String
deriving Repr, DecidableEq

/-- Go map indexing `m[k]` embedded on an association list: first key match. -/
def lookupMap {β : Type} : List (String × β) → String → Option β
  | [], _ => none
  | (k, v) :: rest, id => if k = id then some v else lookupMap rest id

/-- The state of `multiagent.Manager`: configured descriptors, the lazily
instantiated worker map, the active agent id and the visit history. -/
structure Manager (W : Type) where
  agentConfigs : List (String × AgentCfg)
  agents : List (String × W)
  activeAgent : String
  agentHistory : List String
deriving Repr, DecidableEq

/-- The configured agent ids (the key set of `agentConfigs`). -/
def configIDs {W : Type} (m : Manager W) : List String :=
  m.agentConfigs.map Prod.fst

/-- `NewManager` (manager.go): fails with `ErrNoAgentsConfigured` on an empty
registry; otherwise seeds `activeAgent`/`agentHistory` from the loaded session
state when `loadSessionAgentState` succeeded (`loaded = some _`), and on load
failure defaults to `"coder"` when configured, else to the first id yielded by
ranging over the `agentConfigs` map — embedded as the head of the association
list, whose order stands for Go's map iteration order. -/
def NewManager {W : Type} (agentConfigs : List (String × AgentCfg))
    (loaded : Option (String × List String)) : Except MError (Manager W) :=
  if agentConfigs.isEmpty then .error .noAgentsConfigured
  else
    match loaded with
    | some (activeAgentID, agentHistory) =>
      .ok ⟨agentConfigs, [], activeAgentID, agentHistory⟩
    | none =>
      let defaultID :=
        if (lookupMap agentConfigs "coder").isSome then "coder"
        else (agentConfigs.headD ("coder", ⟨"", [], ""⟩)).1
      .ok ⟨agentConfigs, [], defaultID, [defaultID]⟩

/-- The history-update loop shared by `SwitchAgent` and `switchAgentInternal`:
scan `history`, remove the first occurrence of the id (the Go loop breaks after
the first match), leaving the list unchanged when the id is absent. -/
def removeFirst : List String → String → List String
  | [], _ => []
  | x :: xs, a => if x = a then xs else x :: removeFirst xs a

/-- `switchAgentInternal` (manager.go): fail with `ErrAgentNotFound` when the
id is not configured (state untouched); otherwise set the active agent and
move the id to the tail of the history. -/
def switchAgentInternal {W : Type} (m : Manager W) (agentID : String) :
    Except MError Unit × Manager W :=
  if (lookupMap m.agentConfigs agentID).isSome then
    (.ok (), { m with
      activeAgent := agentID,
      agentHistory := removeFirst m.agentHistory agentID ++ [agentID] })
  else (.error .agentNotFound, m)

/-- `SwitchAgent` (manager.go): its body repeats `switchAgentInternal`
verbatim (the same configured-id check and move-to-tail history update) and
contains no `sessionSvc` call, hence the empty persistence trace. -/
def SwitchAgent {W : Type} (m : Manager W) (agentID : String) :
    Except MError Unit × Manager W × List SaveCall :=
  let r := switchAgentInternal m agentID
  (r.1, r.2, [])

/-- The first loop of `getAvailableAgentIDs`: the history ids that are still
configured, in history order (the loop guards on `agentConfigs[id]` but not on
the `added` set). -/
def histPart {W : Type} (m : Manager W) : List String :=
  m.agentHistory.filter (fun id => (lookupMap m.agentConfigs id).isSome)

/-- The second loop of `getAvailableAgentIDs`: for a configured id, `added[id]`
holds exactly when the id occurs in the history, so this loop contributes the
configured ids outside the history, in map iteration order (= association-list
order here). -/
def restPart {W : Type} (m : Manager W) : List String :=
  (configIDs m).filter (fun id => !(decide (id ∈ m.agentHistory)))

/-- `getAvailableAgentIDs` (manager.go): history ids still configured first,
then the remaining configured ids. -/
def getAvailableAgentIDs {W : Type} (m : Manager W) : List String :=
  histPart m ++ restPart m

/-- The `currentIndex` loop of `CycleNext`/`CyclePrevious`: start at 0, take
the index of the first match, keep 0 when the active id is absent. -/
def findIndexLoop (active : String) : List String → Nat → Nat
  | [], _ => 0
  | x :: xs, i => if x = active then i else findIndexLoop active xs (i + 1)

/-- `CycleNext` (manager.go): no-op when at most one agent is available, else
switch to `available[(currentIndex + 1) % len(available)]`. -/
def CycleNext {W : Type} (m : Manager W) : Except MError Unit × Manager W :=
  let available := getAvailableAgentIDs m
  if available.length ≤ 1 then (.ok (), m)
  else
    let currentIndex := findIndexLoop m.activeAgent available 0
    let nextAgentID := available.getD ((currentIndex + 1) % available.length) ""
    switchAgentInternal m nextAgentID

/-- `CyclePrevious` (manager.go): no-op when at most one agent is available,
else switch to `available[(currentIndex - 1 + len) % len]`; the Go index
arithmetic is on non-negative ints, so it equals
`(currentIndex + len - 1) % len` in `Nat`. -/
def CyclePrevious {W : Type} (m : Manager W) : Except MError Unit × Manager W :=
  let available := getAvailableAgentIDs m
  if available.length ≤ 1 then (.ok (), m)
  else
    let currentIndex := findIndexLoop m.activeAgent available 0
    let prevAgentID :=
      available.getD ((currentIndex + available.length - 1) % available.length) ""
    switchAgentInternal m prevAgentID

/-- The manager state reached by a `CycleNext` call. -/
def cycleNextState {W : Type} (m : Manager W) : Manager W :=
  (CycleNext m).2

/-- The manager state reached by a `CyclePrevious` call. -/
def cyclePrevState {W : Type} (m : Manager W) : Manager W :=
  (CyclePrevious m).2

/-- The manager state reached by a `SwitchAgent` call. -/
def switchState {W : Type} (m : Manager W) (agentID : String) : Manager W :=
  (SwitchAgent m agentID).2.1

/-- `getAgentInstance` (manager.go): return the cached worker when present;
otherwise fail with `ErrAgentNotFound` for an unconfigured id, else invoke the
injected factory — on factory failure return the wrapped error *without*
storing anything, on success store the worker in the map and return it. The
`Bool` component records whether the factory was invoked. -/
def getAgentInstance {W : Type} (factory : AgentCfg → Except String W)
    (m : Manager W) (agentID : String) :
    Except MError W × Manager W × Bool :=
  match lookupMap m.agents agentID with
  | some agt => (.ok agt, m, false)
  | none =>
    match lookupMap m.agentConfigs agentID with
    | none => (.error .agentNotFound, m, false)
    | some agentCfg =>
      match factory agentCfg with
      | .error e => (.error (.workerFailed e), m, true)
      | .ok agt => (.ok agt, { m with agents := m.agents ++ [(agentID, agt)] }, true)

/-- `CurrentAgent` (manager.go): resolve the worker for the active agent. -/
def CurrentAgent {W : Type} (factory : AgentCfg → Except String W)
    (m : Manager W) : Except MError W × Manager W × Bool :=
  getAgentInstance factory m m.activeAgent

/-- `saveSessionAgentState` (manager.go): one `UpdateAgent` store call carrying
the current active agent and history; `saveOk` is the store's behaviour
(marshalling a `[]string` cannot fail). -/
def saveSessionAgentState {W : Type} (saveOk : Bool) (m : Manager W) :
    Except String Unit × List SaveCall :=
  ((if saveOk then .ok () else .error "failed to update session agent state"),
   [⟨m.activeAgent, m.agentHistory⟩])

/-- `Run` (manager.go): resolve the current agent's worker (propagating its
error), then save the session agent state — a failure is only logged with
`slog.Warn` and changes nothing — then dispatch the worker's `Run`, wrapping
its error. The trace collects the store calls made. -/
def Run {W E : Type} (factory : AgentCfg → Except String W)
    (runner : W → String → Except String E) (saveOk : Bool)
    (m : Manager W) (content : String) :
    Except MError E × Manager W × List SaveCall :=
  match CurrentAgent factory m with
  | (.error e, m', _) => (.error e, m', [])
  | (.ok agt, m', _) =>
    let saved := saveSessionAgentState saveOk m'
    match runner agt content with
    | .error e => (.error (.workerFailed e), m', saved.2)
    | .ok ev => (.ok ev, m', saved.2)

/-- `Cancel` (manager.go): resolve the active agent's worker through
`getAgentInstance` (constructing it when missing) and, when that succeeded,
invoke `Cancel` on it — the returned `Option W` is the worker whose `Cancel`
was called, and the `Bool` records whether the factory ran. -/
def Cancel {W : Type} (factory : AgentCfg → Except String W) (m : Manager W) :
    Manager W × Option W × Bool :=
  match getAgentInstance factory m m.activeAgent with
  | (.ok agt, m', called) => (m', some agt, called)
  | (.error _, m', called) => (m', none, called)

/-- `IsSessionBusy` (manager.go): resolve the active agent's worker through
`getAgentInstance` (constructing it when missing); report `false` on a
resolution error, else the worker's busy state (`busy`). The `Bool` trailer
records whether the factory ran. -/
def IsSessionBusy {W : Type} (factory : AgentCfg → Except String W)
    (busy : W → Bool) (m : Manager W) : Bool × Manager W × Bool :=
  match getAgentInstance factory m m.activeAgent with
  | (.error _, m', called) => (false, m', called)
  | (.ok agt, m', called) => (busy agt, m', called)

/-- Modelled from the spec: the delegation operation `RunAs` (spec §4.6) is
not present in the source tree — `manager.go` only declares the error value
`ErrAgentNotAvailable` it uses. Following the spec's words: validate the
sub-agent id against the parent descriptor's allowed-sub-agent list, falling
back to the parent's configured default sub-agent when none is specified;
fail with `AgentNotAvailable` when not permitted; resolve the sub-agent's
worker through the same lazy worker map (§4.4) and dispatch `Run` on that
worker directly, never calling `SwitchAgent` and never touching
`activeAgent`/`agentHistory`. `runAsDispatch` is the post-validation part:
resolve the sub-agent's worker and forward the run call, wrapping errors. -/
def runAsDispatch {W E : Type} (factory : AgentCfg → Except String W)
    (runner : W → String → Except String E) (m : Manager W)
    (sid content : String) : Except MError E × Manager W :=
  match getAgentInstance factory m sid with
  | (.error e, m', _) => (.error e, m')
  | (.ok agt, m', _) =>
    match runner agt content with
    | .error e => (.error (.workerFailed e), m')
    | .ok ev => (.ok ev, m')

/-- Modelled from the spec: `RunAs(parentAgentID, subAgentID, content)`
(spec §4.6, absent from the source tree): resolve the parent descriptor,
validate the sub-agent id (defaulting to the parent's configured default
sub-agent when none is specified, failing with `AgentNotAvailable` when not
permitted), then dispatch through `runAsDispatch` — no switch, no history
update. -/
def RunAs {W E : Type} (factory : AgentCfg → Except String W)
    (runner : W → String → Except String E) (m : Manager W)
    (parentAgentID subAgentID content : String) :
    Except MError E × Manager W :=
  match lookupMap m.agentConfigs parentAgentID with
  | none => (.error .agentNotFound, m)
  | some parentCfg =>
    let sid := if subAgentID = "" then parentCfg.defaultSubagent else subAgentID
    if sid ∈ parentCfg.allowedSubagents then
      runAsDispatch factory runner m sid content
    else (.error .agentNotAvailable, m)

/-- The Session Agent State invariant of the spec's data model: the history
has no duplicate ids and, when non-empty, its last element is the active id. -/
def Inv {W : Type} (m : Manager W) : Prop :=
  m.agentHistory.Nodup ∧
    (m.agentHistory ≠ [] → m.agentHistory.getLast? = some m.activeAgent)

/-- A well-formed cycling state: the configured ids are pairwise distinct (a
Go map guarantees this), the history invariant holds, the history is
non-empty, and the active id is configured. -/
def GoodState {W : Type} (m : Manager W) : Prop :=
  (configIDs m).Nodup ∧ m.agentHistory.Nodup ∧ m.agentHistory ≠ [] ∧
    m.agentHistory.getLast? = some m.activeAgent ∧ m.activeAgent ∈ configIDs m

instance {W : Type} (m : Manager W) : Decidable (Inv m) :=
  decidable_of_iff
    (m.agentHistory.Nodup ∧
      (m.agentHistory ≠ [] → m.agentHistory.getLast? = some m.activeAgent))
    Iff.rfl

instance {W : Type} (m : Manager W) : Decidable (GoodState m) :=
  decidable_of_iff
    ((configIDs m).Nodup ∧ m.agentHistory.Nodup ∧ m.agentHistory ≠ [] ∧
      m.agentHistory.getLast? = some m.activeAgent ∧ m.activeAgent ∈ configIDs m)
    Iff.rfl

/-- A throwaway descriptor used by the concrete test states below. -/
def cfg0 : AgentCfg := ⟨"", [], ""⟩

/-- Concrete state: three agents, active `"a"`, history `["a"]` (the state
`NewManager` produces on load failure with `"a"` as the default). -/
def mABC : Manager Nat := ⟨[("a", cfg0), ("b", cfg0), ("c", cfg0)], [], "a", ["a"]⟩

/-- Concrete state: three agents, empty history (the state `NewManager`
produces for a fresh session row, whose persisted history is `[]`). -/
def mEmptyHist : Manager Nat :=
  ⟨[("a", cfg0), ("b", cfg0), ("c", cfg0)], [], "a", []⟩

/-- Concrete state: the persisted active id `"z"` is no longer configured. -/
def mStale : Manager Nat := ⟨[("a", cfg0), ("b", cfg0)], [], "z", ["z"]⟩

/-- Concrete state: two agents, active `"a"`, history `["a"]`. -/
def mAB : Manager Nat := ⟨[("a", cfg0), ("b", cfg0)], [], "a", ["a"]⟩

/-! ### Association list, `removeFirst`, `findIndexLoop` and `getD` lemmas -/

theorem lookupMap_isSome_iff {β : Type} (l : List (String × β)) (id : String) :
    (lookupMap l id).isSome = true ↔ id ∈ l.map Prod.fst := by
  induction l with
  | nil => simp [lookupMap]
  | cons kv rest ih =>
    obtain ⟨k, v⟩ := kv
    by_cases h : k = id
    · subst h; simp [lookupMap]
    · simp only [lookupMap, if_neg h, List.map_cons, List.mem_cons, ih]
      constructor
      · exact fun hm => Or.inr hm
      · rintro (rfl | hm)
        · exact absurd rfl h
        · exact hm

theorem lookupMap_eq_none_iff {β : Type} (l : List (String × β)) (id : String) :
    lookupMap l id = none ↔ id ∉ l.map Prod.fst := by
  constructor
  · intro h hmem
    have hs := (lookupMap_isSome_iff l id).mpr hmem
    rw [h] at hs
    simp at hs
  · intro h
    cases hc : lookupMap l id with
    | none => rfl
    | some v =>
      exact absurd ((lookupMap_isSome_iff l id).mp (by rw [hc]; rfl)) h

theorem lookupMap_append_self {β : Type} (l : List (String × β)) (id : String)
    (w : β) (h : lookupMap l id = none) :
    lookupMap (l ++ [(id, w)]) id = some w := by
  induction l with
  | nil => simp [lookupMap]
  | cons kv rest ih =>
    obtain ⟨k, v⟩ := kv
    by_cases hk : k = id
    · rw [lookupMap, if_pos hk] at h; exact absurd h (by simp)
    · rw [lookupMap, if_neg hk] at h
      simpa [lookupMap, hk] using ih h

theorem removeFirst_of_not_mem (l : List String) (a : String) (h : a ∉ l) :
    removeFirst l a = l := by
  induction l with
  | nil => rfl
  | cons x xs ih =>
    have hx : x ≠ a := fun he => h (he ▸ List.mem_cons_self x xs)
    have hxs : a ∉ xs := fun hm => h (List.mem_cons_of_mem x hm)
    simp [removeFirst, hx, ih hxs]

theorem removeFirst_cons_self (l : List String) (a : String) :
    removeFirst (a :: l) a = l := by
  simp [removeFirst]

theorem removeFirst_append (u v : List String) (a : String) :
    removeFirst (u ++ v) a =
      if a ∈ u then removeFirst u a ++ v else u ++ removeFirst v a := by
  induction u with
  | nil => simp [removeFirst]
  | cons x xs ih =>
    by_cases hx : x = a
    · subst hx
      simp [removeFirst]
    · have hax : a ≠ x := fun he => hx he.symm
      by_cases hm : a ∈ xs
      · simp [removeFirst, hx, hm, ih, hax]
      · simp [removeFirst, hx, hm, ih, hax]

theorem mem_of_mem_removeFirst {l : List String} {a z : String}
    (h : z ∈ removeFirst l a) : z ∈ l := by
  induction l with
  | nil => simp [removeFirst] at h
  | cons x xs ih =>
    by_cases hx : x = a
    · subst hx
      rw [removeFirst_cons_self] at h
      exact List.mem_cons_of_mem _ h
    · rw [removeFirst, if_neg hx] at h
      rcases List.mem_cons.mp h with rfl | hm
      · exact List.mem_cons_self _ _
      · exact List.mem_cons_of_mem _ (ih hm)

theorem removeFirst_nodup {l : List String} (a : String) (h : l.Nodup) :
    (removeFirst l a).Nodup := by
  induction l with
  | nil => simp [removeFirst]
  | cons x xs ih =>
    rcases List.nodup_cons.mp h with ⟨hx, hxs⟩
    by_cases hxa : x = a
    · subst hxa; rw [removeFirst_cons_self]; exact hxs
    · rw [removeFirst, if_neg hxa]
      exact List.nodup_cons.mpr
        ⟨fun hm => hx (mem_of_mem_removeFirst hm), ih hxs⟩

theorem not_mem_removeFirst_self {l : List String} (a : String) (h : l.Nodup) :
    a ∉ removeFirst l a := by
  induction l with
  | nil => simp [removeFirst]
  | cons x xs ih =>
    rcases List.nodup_cons.mp h with ⟨hx, hxs⟩
    by_cases hxa : x = a
    · subst hxa; rw [removeFirst_cons_self]; exact hx
    · rw [removeFirst, if_neg hxa]
      intro hm
      rcases List.mem_cons.mp hm with he | hm'
      · exact hxa he.symm
      · exact ih hxs hm'

theorem length_removeFirst {l : List String} {a : String} (h : a ∈ l) :
    (removeFirst l a).length + 1 = l.length := by
  induction l with
  | nil => cases h
  | cons x xs ih =>
    by_cases hxa : x = a
    · subst hxa; rw [removeFirst_cons_self]; rfl
    · rw [removeFirst, if_neg hxa]
      have hm : a ∈ xs := by
        rcases List.mem_cons.mp h with he | hm
        · exact absurd he.symm hxa
        · exact hm
      simp [← ih hm]

theorem removeFirst_filter (p : String → Bool) (l : List String) (a : String)
    (hpa : p a = true) :
    removeFirst (l.filter p) a = (removeFirst l a).filter p := by
  induction l with
  | nil => rfl
  | cons x xs ih =>
    by_cases hxa : x = a
    · subst hxa
      simp [List.filter_cons, hpa, removeFirst_cons_self]
    · cases hpx : p x with
      | true => simp [List.filter_cons, hpx, removeFirst, hxa, ih]
      | false => simp [List.filter_cons, hpx, removeFirst, hxa, ih]

theorem mem_removeFirst_append_self {l : List String} {a : String} (h : a ∈ l)
    (z : String) : z ∈ removeFirst l a ++ [a] ↔ z ∈ l := by
  induction l with
  | nil => cases h
  | cons x xs ih =>
    by_cases hxa : x = a
    · subst hxa
      rw [removeFirst_cons_self]
      simp [List.mem_append, List.mem_cons, or_comm]
    · have hm : a ∈ xs := by
        rcases List.mem_cons.mp h with he | hm
        · exact absurd he.symm hxa
        · exact hm
      rw [removeFirst, if_neg hxa]
      simp only [List.cons_append, List.mem_cons, ih hm]

theorem findIndexLoop_append (a : String) (u v : List String) (h : a ∉ u) :
    ∀ i, findIndexLoop a (u ++ a :: v) i = i + u.length := by
  induction u with
  | nil => intro i; simp [findIndexLoop]
  | cons x xs ih =>
    intro i
    have hx : x ≠ a := fun he => h (he ▸ List.mem_cons_self x xs)
    have hxs : a ∉ xs := fun hm => h (List.mem_cons_of_mem x hm)
    rw [List.cons_append, findIndexLoop, if_neg hx, ih hxs (i + 1)]
    simp [List.length_cons]
    omega

theorem getD_append_left (l₁ l₂ : List String) (n : Nat) (d : String)
    (h : n < l₁.length) : (l₁ ++ l₂).getD n d = l₁.getD n d := by
  simp only [List.getD_eq_getElem?_getD, List.getElem?_append_left h]

theorem getD_append_right (l₁ l₂ : List String) (n : Nat) (d : String)
    (h : l₁.length ≤ n) : (l₁ ++ l₂).getD n d = l₂.getD (n - l₁.length) d := by
  simp only [List.getD_eq_getElem?_getD, List.getElem?_append_right h]

theorem getD_snoc_length (l : List String) (a d : String) :
    (l ++ [a]).getD l.length d = a := by
  rw [getD_append_right l [a] l.length d le_rfl]
  simp [List.getD]

theorem eq_append_getLast {l : List String} {a : String} (hne : l ≠ [])
    (hlast : l.getLast? = some a) : l = l.dropLast ++ [a] := by
  have h1 := List.dropLast_append_getLast hne
  have h2 := List.getLast?_eq_getLast l hne
  rw [hlast] at h2
  rw [Option.some.injEq] at h2
  rw [← h2] at h1
  exact h1.symm

/-! ### Availability-list structure -/

theorem mem_configIDs_iff {W : Type} (m : Manager W) (z : String) :
    z ∈ configIDs m ↔ (lookupMap m.agentConfigs z).isSome = true :=
  (lookupMap_isSome_iff m.agentConfigs z).symm

theorem mem_histPart {W : Type} (m : Manager W) (z : String) :
    z ∈ histPart m ↔ z ∈ m.agentHistory ∧ z ∈ configIDs m := by
  simp [histPart, List.mem_filter, lookupMap_isSome_iff, configIDs]

theorem mem_restPart {W : Type} (m : Manager W) (z : String) :
    z ∈ restPart m ↔ z ∈ configIDs m ∧ z ∉ m.agentHistory := by
  simp [restPart, List.mem_filter]

theorem histPart_nodup {W : Type} (m : Manager W) (h : m.agentHistory.Nodup) :
    (histPart m).Nodup :=
  h.filter _

theorem restPart_nodup {W : Type} (m : Manager W) (h : (configIDs m).Nodup) :
    (restPart m).Nodup :=
  h.filter _

theorem avail_nodup {W : Type} (m : Manager W) (hk : (configIDs m).Nodup)
    (hh : m.agentHistory.Nodup) : (getAvailableAgentIDs m).Nodup := by
  refine List.Nodup.append (histPart_nodup m hh) (restPart_nodup m hk) ?_
  intro z hz hz'
  exact ((mem_restPart m z).mp hz').2 ((mem_histPart m z).mp hz).1

theorem mem_avail {W : Type} (m : Manager W) (z : String) :
    z ∈ getAvailableAgentIDs m ↔ z ∈ configIDs m := by
  simp only [getAvailableAgentIDs, List.mem_append, mem_histPart, mem_restPart]
  by_cases hz : z ∈ m.agentHistory <;> by_cases hc : z ∈ configIDs m <;>
    simp [hz, hc]

theorem avail_perm {W : Type} (m : Manager W) (hk : (configIDs m).Nodup)
    (hh : m.agentHistory.Nodup) :
    List.Perm (getAvailableAgentIDs m) (configIDs m) :=
  (List.perm_ext_iff_of_nodup (avail_nodup m hk hh) hk).mpr (mem_avail m)

theorem avail_length {W : Type} (m : Manager W) (hk : (configIDs m).Nodup)
    (hh : m.agentHistory.Nodup) :
    (getAvailableAgentIDs m).length = m.agentConfigs.length := by
  rw [(avail_perm m hk hh).length_eq]
  simp [configIDs]

theorem goodState_hist_decomp {W : Type} {m : Manager W} (h : GoodState m) :
    ∃ I, m.agentHistory = I ++ [m.activeAgent] ∧ m.activeAgent ∉ I ∧ I.Nodup := by
  obtain ⟨hk, hh, hne, hlast, hact⟩ := h
  refine ⟨m.agentHistory.dropLast, eq_append_getLast hne hlast, ?_, ?_⟩
  · intro hmem
    have := eq_append_getLast hne hlast
    rw [this] at hh
    rcases List.nodup_append.mp hh with ⟨_, _, hdisj⟩
    exact hdisj hmem (List.mem_singleton_self _)
  · have := eq_append_getLast hne hlast
    rw [this] at hh
    exact (List.nodup_append.mp hh).1

theorem histPart_decomp {W : Type} {m : Manager W} (h : GoodState m) :
    ∃ J, histPart m = J ++ [m.activeAgent] ∧ m.activeAgent ∉ J := by
  obtain ⟨I, hI, hnm, _⟩ := goodState_hist_decomp h
  obtain ⟨hk, hh, hne, hlast, hact⟩ := h
  refine ⟨I.filter (fun id => (lookupMap m.agentConfigs id).isSome), ?_, ?_⟩
  · rw [histPart, hI, List.filter_append]
    have : (lookupMap m.agentConfigs m.activeAgent).isSome = true :=
      (mem_configIDs_iff m _).mp hact
    simp [List.filter_cons, this]
  · intro hmem
    exact hnm (List.mem_filter.mp hmem).1

theorem histPart_ne_nil {W : Type} {m : Manager W} (h : GoodState m) :
    histPart m ≠ [] := by
  obtain ⟨J, hJ, _⟩ := histPart_decomp h
  rw [hJ]
  simp

theorem histPart_getD_last {W : Type} {m : Manager W} (h : GoodState m) :
    (histPart m).getD ((histPart m).length - 1) "" = m.activeAgent := by
  obtain ⟨J, hJ, _⟩ := histPart_decomp h
  rw [hJ]
  simp only [List.length_append, List.length_singleton, Nat.add_sub_cancel]
  exact getD_snoc_length J _ _

theorem findIndex_avail {W : Type} {m : Manager W} (h : GoodState m) :
    findIndexLoop m.activeAgent (getAvailableAgentIDs m) 0 =
      (histPart m).length - 1 := by
  obtain ⟨J, hJ, hnm⟩ := histPart_decomp h
  rw [getAvailableAgentIDs, hJ, List.append_assoc, List.singleton_append,
    findIndexLoop_append _ _ _ hnm 0]
  simp

theorem active_mem_histPart {W : Type} {m : Manager W} (h : GoodState m) :
    m.activeAgent ∈ histPart m := by
  obtain ⟨J, hJ, _⟩ := histPart_decomp h
  rw [hJ]
  simp

/-! ### Cycle step lemmas -/

theorem cycleNext_noop {W : Type} {m : Manager W}
    (h : (getAvailableAgentIDs m).length ≤ 1) : cycleNextState m = m := by
  simp [cycleNextState, CycleNext, h]

theorem cyclePrev_noop {W : Type} {m : Manager W}
    (h : (getAvailableAgentIDs m).length ≤ 1) : cyclePrevState m = m := by
  simp [cyclePrevState, CyclePrevious, h]

theorem cycleNext_eq {W : Type} {m : Manager W}
    (h2 : 1 < (getAvailableAgentIDs m).length) :
    CycleNext m = switchAgentInternal m ((getAvailableAgentIDs m).getD
      ((findIndexLoop m.activeAgent (getAvailableAgentIDs m) 0 + 1) %
        (getAvailableAgentIDs m).length) "") := by
  simp only [CycleNext]
  rw [if_neg (by omega)]

theorem cyclePrev_eq {W : Type} {m : Manager W}
    (h2 : 1 < (getAvailableAgentIDs m).length) :
    CyclePrevious m = switchAgentInternal m ((getAvailableAgentIDs m).getD
      ((findIndexLoop m.activeAgent (getAvailableAgentIDs m) 0 +
        (getAvailableAgentIDs m).length - 1) %
        (getAvailableAgentIDs m).length) "") := by
  simp only [CyclePrevious]
  rw [if_neg (by omega)]

theorem goodState_after_switch {W : Type} {m : Manager W}
    (hk : (configIDs m).Nodup) (hh : m.agentHistory.Nodup) {x : String}
    (hx : x ∈ configIDs m) :
    GoodState { m with activeAgent := x,
                       agentHistory := removeFirst m.agentHistory x ++ [x] } := by
  refine ⟨by simpa [configIDs] using hk, ?_, by simp, ?_, by simpa [configIDs] using hx⟩
  · refine List.Nodup.append (removeFirst_nodup x hh) (List.nodup_singleton x) ?_
    intro z hz hz'
    rw [List.mem_singleton] at hz'
    subst hz'
    exact not_mem_removeFirst_self z hh hz
  · simp [List.getLast?_concat]

theorem histPart_update {W : Type} (m : Manager W) (x : String) (l : List String) :
    histPart { m with activeAgent := x, agentHistory := l } =
      l.filter (fun id => (lookupMap m.agentConfigs id).isSome) := rfl

theorem restPart_update {W : Type} (m : Manager W) (x : String) (l : List String) :
    restPart { m with activeAgent := x, agentHistory := l } =
      (configIDs m).filter (fun id => !(decide (id ∈ l))) := rfl

theorem histPart_snoc {W : Type} (m : Manager W) {x : String}
    (hx : x ∈ configIDs m) :
    histPart { m with activeAgent := x, agentHistory := m.agentHistory ++ [x] } =
      histPart m ++ [x] := by
  rw [histPart_update, List.filter_append]
  have hpx : (lookupMap m.agentConfigs x).isSome = true := (mem_configIDs_iff m x).mp hx
  simp [List.filter_cons, hpx, histPart]

theorem histPart_move {W : Type} (m : Manager W) {x : String}
    (hx : x ∈ configIDs m) :
    histPart { m with activeAgent := x,
                      agentHistory := removeFirst m.agentHistory x ++ [x] } =
      removeFirst (histPart m) x ++ [x] := by
  rw [histPart_update, List.filter_append]
  have hpx : (lookupMap m.agentConfigs x).isSome = true := (mem_configIDs_iff m x).mp hx
  rw [← removeFirst_filter _ _ _ hpx]
  simp [List.filter_cons, hpx, histPart]

theorem restPart_hist_congr {W : Type} (m : Manager W) (x : String)
    (l l' : List String) (hmem : ∀ z, z ∈ l ↔ z ∈ l') :
    restPart { m with activeAgent := x, agentHistory := l } =
      restPart { m with activeAgent := x, agentHistory := l' } := by
  rw [restPart_update, restPart_update]
  refine List.filter_congr ?_
  intro z _
  simp [hmem z]

theorem restPart_move_mem {W : Type} (m : Manager W) {x : String}
    (hx : x ∈ m.agentHistory) :
    restPart { m with activeAgent := x,
                      agentHistory := removeFirst m.agentHistory x ++ [x] } =
      restPart m := by
  rw [restPart_update]
  refine List.filter_congr ?_
  intro z _
  simp [mem_removeFirst_append_self hx z]

theorem restPart_snoc {W : Type} (m : Manager W) (x : String) :
    restPart { m with activeAgent := x, agentHistory := m.agentHistory ++ [x] } =
      (restPart m).filter (fun id => !(decide (id = x))) := by
  rw [restPart_update, restPart, List.filter_filter]
  refine List.filter_congr ?_
  intro z _
  by_cases hz : z ∈ m.agentHistory <;> by_cases hzx : z = x <;>
    simp [hz, hzx]

theorem cycleNext_step_rest {W : Type} {m : Manager W} (h : GoodState m)
    {r0 : String} {rt : List String} (hr : restPart m = r0 :: rt) :
    CycleNext m =
      (.ok (), { m with activeAgent := r0,
                        agentHistory := m.agentHistory ++ [r0] }) := by
  have hr0 : r0 ∈ restPart m := by rw [hr]; exact List.mem_cons_self _ _
  have hr0c : r0 ∈ configIDs m := ((mem_restPart m r0).mp hr0).1
  have hr0h : r0 ∉ m.agentHistory := ((mem_restPart m r0).mp hr0).2
  have hp1 : 1 ≤ (histPart m).length :=
    List.length_pos.mpr (histPart_ne_nil h)
  have hlen : (getAvailableAgentIDs m).length =
      (histPart m).length + (rt.length + 1) := by
    simp [getAvailableAgentIDs, hr]
  have h2 : 1 < (getAvailableAgentIDs m).length := by omega
  rw [cycleNext_eq h2, findIndex_avail h]
  have hidx : ((histPart m).length - 1 + 1) % (getAvailableAgentIDs m).length =
      (histPart m).length := by
    have he : (histPart m).length - 1 + 1 = (histPart m).length := by omega
    rw [he, Nat.mod_eq_of_lt (by omega)]
  rw [hidx]
  have hget : (getAvailableAgentIDs m).getD (histPart m).length "" = r0 := by
    rw [getAvailableAgentIDs, getD_append_right _ _ _ _ le_rfl, Nat.sub_self, hr]
    rfl
  rw [hget, switchAgentInternal,
    if_pos ((mem_configIDs_iff m r0).mp hr0c),
    removeFirst_of_not_mem _ _ hr0h]

theorem cycleNext_step_full {W : Type} {m : Manager W} (h : GoodState m)
    (hrest : restPart m = []) {y : String} {t : List String}
    (hhp : histPart m = y :: t) (ht : t ≠ []) :
    CycleNext m =
      (.ok (), { m with activeAgent := y,
                        agentHistory := removeFirst m.agentHistory y ++ [y] }) := by
  have hyc : y ∈ configIDs m :=
    ((mem_histPart m y).mp (by rw [hhp]; exact List.mem_cons_self _ _)).2
  have havail : getAvailableAgentIDs m = y :: t := by
    rw [getAvailableAgentIDs, hrest, hhp, List.append_nil]
  have h2 : 1 < (getAvailableAgentIDs m).length := by
    rw [havail]
    cases t with
    | nil => exact absurd rfl ht
    | cons a t' => simp
  rw [cycleNext_eq h2, findIndex_avail h]
  have hlen : (getAvailableAgentIDs m).length = (histPart m).length := by
    rw [havail, hhp]
  have hp1 : 1 ≤ (histPart m).length := by
    rw [hhp]; simp
  have hidx : ((histPart m).length - 1 + 1) % (getAvailableAgentIDs m).length = 0 := by
    have he : (histPart m).length - 1 + 1 = (histPart m).length := by omega
    rw [he, hlen, Nat.mod_self]
  rw [hidx]
  have hget : (getAvailableAgentIDs m).getD 0 "" = y := by
    rw [havail]; rfl
  rw [hget, switchAgentInternal, if_pos ((mem_configIDs_iff m y).mp hyc)]

/-! ### Cycling phases: consuming the rest part, then rotating the history -/

theorem step_rest_parts {W : Type} {m : Manager W} (hg : GoodState m)
    {r0 : String} {rt : List String} (hr : restPart m = r0 :: rt) :
    cycleNextState m =
      { m with activeAgent := r0, agentHistory := m.agentHistory ++ [r0] } ∧
    GoodState (cycleNextState m) ∧
    restPart (cycleNextState m) = rt ∧
    histPart (cycleNextState m) = histPart m ++ [r0] := by
  have hr0 : r0 ∈ restPart m := by rw [hr]; exact List.mem_cons_self _ _
  have hr0c : r0 ∈ configIDs m := ((mem_restPart m r0).mp hr0).1
  have hr0h : r0 ∉ m.agentHistory := ((mem_restPart m r0).mp hr0).2
  have hm1 : cycleNextState m =
      { m with activeAgent := r0, agentHistory := m.agentHistory ++ [r0] } := by
    rw [cycleNextState, cycleNext_step_rest hg hr]
  refine ⟨hm1, ?_, ?_, ?_⟩
  · rw [hm1]
    have hgs := goodState_after_switch hg.1 hg.2.1 hr0c
    rwa [removeFirst_of_not_mem _ _ hr0h] at hgs
  · rw [hm1, restPart_snoc, hr]
    have hnr : (restPart m).Nodup := restPart_nodup m hg.1
    rw [hr] at hnr
    have hr0rt : r0 ∉ rt := (List.nodup_cons.mp hnr).1
    rw [List.filter_cons, if_neg (by simp)]
    refine List.filter_eq_self.mpr ?_
    intro z hz
    have hzr : z ≠ r0 := fun he => hr0rt (he ▸ hz)
    simp [hzr]
  · rw [hm1, histPart_snoc m hr0c]

theorem cycle_phase_rest {W : Type} :
    ∀ (r : List String) (m : Manager W), GoodState m → restPart m = r →
      GoodState (cycleNextState^[r.length] m) ∧
      restPart (cycleNextState^[r.length] m) = [] ∧
      histPart (cycleNextState^[r.length] m) = histPart m ++ r := by
  intro r
  induction r with
  | nil =>
    intro m hg hr
    simpa [hr] using hg
  | cons r0 rt ih =>
    intro m hg hr
    obtain ⟨hm1, hg1, hrest1, hhist1⟩ := step_rest_parts hg hr
    have hiter : cycleNextState^[(r0 :: rt).length] m =
        cycleNextState^[rt.length] (cycleNextState m) := by
      rw [List.length_cons, Function.iterate_succ_apply]
    obtain ⟨hgf, hrf, hhf⟩ := ih (cycleNextState m) hg1 hrest1
    refine ⟨by rwa [hiter], by rwa [hiter], ?_⟩
    rw [hiter, hhf, hhist1, List.append_assoc]
    rfl

theorem cycle_phase_full {W : Type} :
    ∀ (k : Nat) (m : Manager W), GoodState m → restPart m = [] →
      k ≤ (histPart m).length →
      GoodState (cycleNextState^[k] m) ∧
      restPart (cycleNextState^[k] m) = [] ∧
      histPart (cycleNextState^[k] m) =
        (histPart m).drop k ++ (histPart m).take k ∧
      (1 ≤ k → (cycleNextState^[k] m).activeAgent = (histPart m).getD (k - 1) "") := by
  intro k
  induction k with
  | zero =>
    intro m hg hr _
    refine ⟨hg, hr, by simp, by omega⟩
  | succ k ih =>
    intro m hg hr hk1
    obtain ⟨hg', hr', hh', hact'⟩ := ih m hg hr (Nat.le_of_succ_le hk1)
    have hlen : (histPart (cycleNextState^[k] m)).length = (histPart m).length := by
      rw [hh']
      simp only [List.length_append, List.length_drop, List.length_take]
      omega
    have hp1 : 1 ≤ (histPart m).length :=
      List.length_pos.mpr (histPart_ne_nil hg)
    have hiter : cycleNextState^[k + 1] m =
        cycleNextState (cycleNextState^[k] m) :=
      Function.iterate_succ_apply' cycleNextState k m
    by_cases hsmall : (histPart m).length ≤ 1
    · have hk0 : k = 0 := by omega
      subst hk0
      have hhp1 : (histPart m).length = 1 := by omega
      obtain ⟨J, hJ, -⟩ := histPart_decomp hg
      have hJnil : J = [] := by
        have hlJ : (histPart m).length = J.length + 1 := by
          rw [hJ]; simp
        have hJ0 : J.length = 0 := by omega
        exact List.eq_nil_of_length_eq_zero hJ0
      subst hJnil
      rw [List.nil_append] at hJ
      have hnoop : cycleNextState m = m :=
        cycleNext_noop (by rw [getAvailableAgentIDs, hr, hJ]; simp)
      rw [Function.iterate_one] at hiter ⊢
      rw [hnoop]
      refine ⟨hg, hr, ?_, ?_⟩
      · rw [hJ]; rfl
      · intro _
        rw [hJ]; rfl
    · have hp2 : 2 ≤ (histPart m).length := by omega
      set mk := cycleNextState^[k] m with hmk_def
      have hkA : k < (histPart m).length := by omega
      cases hmk : histPart mk with
      | nil =>
        rw [hmk] at hlen
        simp at hlen
        omega
      | cons y t =>
        have ht : t ≠ [] := by
          have : t.length + 1 = (histPart m).length := by
            rw [← hlen, hmk]; rfl
          intro hnil
          rw [hnil] at this
          simp at this
          omega
        have hm' : cycleNextState mk =
            { mk with activeAgent := y,
                      agentHistory := removeFirst mk.agentHistory y ++ [y] } := by
          rw [cycleNextState, cycleNext_step_full hg' hr' hmk ht]
        have hyhp : y ∈ histPart mk := by rw [hmk]; exact List.mem_cons_self _ _
        have hyc : y ∈ configIDs mk := ((mem_histPart mk y).mp hyhp).2
        have hyh : y ∈ mk.agentHistory := ((mem_histPart mk y).mp hyhp).1
        have hgnext : GoodState (cycleNextState mk) := by
          rw [hm']
          exact goodState_after_switch hg'.1 hg'.2.1 hyc
        have hrnext : restPart (cycleNextState mk) = [] := by
          rw [hm', restPart_move_mem mk hyh, hr']
        have hhnext : histPart (cycleNextState mk) = t ++ [y] := by
          rw [hm', histPart_move mk hyc, hmk, removeFirst_cons_self]
        -- identify y and t against drop/take of the original history part
        have hdrop : (histPart m).drop k =
            (histPart m)[k] :: (histPart m).drop (k + 1) :=
          List.drop_eq_getElem_cons hkA
        have hcons : (histPart m)[k] ::
            ((histPart m).drop (k + 1) ++ (histPart m).take k) = y :: t := by
          rw [← List.cons_append, ← hdrop, ← hh', hmk]
        injection hcons with hy htl
        have htake : (histPart m).take (k + 1) =
            (histPart m).take k ++ [(histPart m)[k]] := by
          rw [List.take_succ, List.getElem?_eq_getElem hkA]
          rfl
        refine ⟨by rwa [hiter], by rwa [hiter], ?_, ?_⟩
        · rw [hiter, hhnext, ← hy, ← htl, htake, List.append_assoc]
        · intro _
          rw [hiter, hm']
          show y = (histPart m).getD (k + 1 - 1) ""
          rw [Nat.add_sub_cancel, ← hy]
          simp [List.getD_eq_getElem?_getD, List.getElem?_eq_getElem hkA]

/-! ### Full-cycle closure and left inverses -/

theorem mod_shift (i N : Nat) (h1 : 1 ≤ i) (h2 : i ≤ N) :
    (i + N - 1) % N = i - 1 := by
  have he : i + N - 1 = (i - 1) + N := by omega
  rw [he, Nat.add_mod_right]
  exact Nat.mod_eq_of_lt (by omega)

theorem cycle_closure_active {W : Type} {m : Manager W} (h : GoodState m) :
    (cycleNextState^[m.agentConfigs.length] m).activeAgent = m.activeAgent := by
  have hN : (getAvailableAgentIDs m).length = m.agentConfigs.length :=
    avail_length m h.1 h.2.1
  by_cases hle : (getAvailableAgentIDs m).length ≤ 1
  · rw [Function.iterate_fixed (cycleNext_noop hle)]
  · have hp1 : 1 ≤ (histPart m).length :=
      List.length_pos.mpr (histPart_ne_nil h)
    have hsplit : m.agentConfigs.length =
        (histPart m).length + (restPart m).length := by
      rw [← hN, getAvailableAgentIDs, List.length_append]
    obtain ⟨hg1, hr1, hh1⟩ := cycle_phase_rest (restPart m) m h rfl
    obtain ⟨-, -, -, hact⟩ :=
      cycle_phase_full (histPart m).length (cycleNextState^[(restPart m).length] m)
        hg1 hr1 (by rw [hh1]; simp)
    rw [hsplit, Function.iterate_add_apply, hact hp1, hh1,
      getD_append_left _ _ _ _ (by omega), histPart_getD_last h]

theorem cyclePrev_active_of_getD {W : Type} {m' : Manager W}
    (h2 : 1 < (getAvailableAgentIDs m').length) {a : String}
    (ha : a ∈ configIDs m')
    (hget : (getAvailableAgentIDs m').getD
      ((findIndexLoop m'.activeAgent (getAvailableAgentIDs m') 0 +
        (getAvailableAgentIDs m').length - 1) %
        (getAvailableAgentIDs m').length) "" = a) :
    (cyclePrevState m').activeAgent = a := by
  rw [cyclePrevState, cyclePrev_eq h2, hget, switchAgentInternal,
    if_pos ((mem_configIDs_iff m' a).mp ha)]

theorem cyclePrev_cycleNext_active {W : Type} {m : Manager W} (h : GoodState m) :
    (cyclePrevState (cycleNextState m)).activeAgent = m.activeAgent := by
  by_cases hle : (getAvailableAgentIDs m).length ≤ 1
  · rw [cycleNext_noop hle, cyclePrev_noop hle]
  · have hp1 : 1 ≤ (histPart m).length :=
      List.length_pos.mpr (histPart_ne_nil h)
    cases hr : restPart m with
    | cons r0 rt =>
      obtain ⟨hm1, hg1, hrest1, hhist1⟩ := step_rest_parts h hr
      set m1 := cycleNextState m with hm1def
      have hconf1 : configIDs m1 = configIDs m := by rw [hm1]; rfl
      have havail1 : getAvailableAgentIDs m1 =
          histPart m ++ (r0 :: rt) := by
        rw [getAvailableAgentIDs, hhist1, hrest1, List.append_assoc]
        rfl
      have hlen1 : (getAvailableAgentIDs m1).length =
          (histPart m).length + (rt.length + 1) := by
        rw [havail1]; simp
      have h2 : 1 < (getAvailableAgentIDs m1).length := by omega
      have hact1 : m1.activeAgent = r0 := by rw [hm1]
      have hr0hp : r0 ∉ histPart m := by
        intro hmem
        have hr0 : r0 ∈ restPart m := by rw [hr]; exact List.mem_cons_self _ _
        exact ((mem_restPart m r0).mp hr0).2 ((mem_histPart m r0).mp hmem).1
      have hidx : findIndexLoop m1.activeAgent (getAvailableAgentIDs m1) 0 =
          (histPart m).length := by
        rw [hact1, havail1, findIndexLoop_append _ _ _ hr0hp 0]
        simp
      refine cyclePrev_active_of_getD h2 ?_ ?_
      · rw [hconf1]; exact h.2.2.2.2
      · rw [hidx, hlen1, mod_shift _ _ hp1 (by omega), havail1,
          getD_append_left _ _ _ _ (by omega), histPart_getD_last h]
    | nil =>
      have hhp_eq : getAvailableAgentIDs m = histPart m := by
        rw [getAvailableAgentIDs, hr, List.append_nil]
      have hp2 : 2 ≤ (histPart m).length := by
        rw [← hhp_eq]; omega
      cases hmk : histPart m with
      | nil => rw [hmk] at hp2; simp at hp2
      | cons y t =>
        have ht : t ≠ [] := by
          intro hnil
          rw [hmk, hnil] at hp2
          simp at hp2
        have hm2 : cycleNextState m =
            { m with activeAgent := y,
                     agentHistory := removeFirst m.agentHistory y ++ [y] } := by
          rw [cycleNextState, cycleNext_step_full h hr hmk ht]
        set m2 := cycleNextState m with hm2def
        have hyhp : y ∈ histPart m := by rw [hmk]; exact List.mem_cons_self _ _
        have hyc : y ∈ configIDs m := ((mem_histPart m y).mp hyhp).2
        have hyh : y ∈ m.agentHistory := ((mem_histPart m y).mp hyhp).1
        have hhist2 : histPart m2 = t ++ [y] := by
          rw [hm2, histPart_move m hyc, hmk, removeFirst_cons_self]
        have hrest2 : restPart m2 = [] := by
          rw [hm2, restPart_move_mem m hyh, hr]
        have havail2 : getAvailableAgentIDs m2 = t ++ [y] := by
          rw [getAvailableAgentIDs, hhist2, hrest2, List.append_nil]
        have ht1 : 1 ≤ t.length := by
          cases t with
          | nil => exact absurd rfl ht
          | cons a t' => simp
        have hlen2 : (getAvailableAgentIDs m2).length = t.length + 1 := by
          rw [havail2]; simp
        have h2 : 1 < (getAvailableAgentIDs m2).length := by omega
        have hact2 : m2.activeAgent = y := by rw [hm2]
        have hynodup : y ∉ t := by
          have hnd : (histPart m).Nodup := histPart_nodup m h.2.1
          rw [hmk] at hnd
          exact (List.nodup_cons.mp hnd).1
        have hidx : findIndexLoop m2.activeAgent (getAvailableAgentIDs m2) 0 =
            t.length := by
          rw [hact2, havail2]
          have : t ++ [y] = t ++ y :: [] := rfl
          rw [this, findIndexLoop_append _ _ _ hynodup 0]
          simp
        refine cyclePrev_active_of_getD h2 ?_ ?_
        · have : configIDs m2 = configIDs m := by rw [hm2]; rfl
          rw [this]; exact h.2.2.2.2
        · rw [hidx, hlen2, mod_shift _ _ ht1 (by omega), havail2,
            getD_append_left _ _ _ _ (by omega)]
          have hlast : (histPart m).getD ((histPart m).length - 1) "" =
              m.activeAgent := histPart_getD_last h
          rw [hmk] at hlast
          have hlen3 : (y :: t).length - 1 = (t.length - 1) + 1 := by
            simp only [List.length_cons]
            omega
          rw [hlen3] at hlast
          rw [List.getD_cons_succ] at hlast
          exact hlast

theorem cyclePrev_restore {W : Type} {m' : Manager W} {q rest' : List String}
    {a : String}
    (havail : getAvailableAgentIDs m' = q ++ (m'.activeAgent :: rest'))
    (hnm : m'.activeAgent ∉ q) (hq1 : 1 ≤ q.length)
    (hget : q.getD (q.length - 1) "" = a) (ha : a ∈ configIDs m') :
    (cyclePrevState m').activeAgent = a := by
  have hlen : (getAvailableAgentIDs m').length = q.length + (rest'.length + 1) := by
    rw [havail]; simp
  have h2 : 1 < (getAvailableAgentIDs m').length := by omega
  have hidx : findIndexLoop m'.activeAgent (getAvailableAgentIDs m') 0 =
      q.length := by
    rw [havail, findIndexLoop_append _ _ _ hnm 0]
    simp
  refine cyclePrev_active_of_getD h2 ha ?_
  rw [hidx, mod_shift _ _ hq1 (by omega), havail,
    getD_append_left _ _ _ _ (by omega), hget]

theorem cyclePrev_switch_active {W : Type} {m : Manager W} (h : GoodState m)
    {x : String} (hx : x ∈ configIDs m) (hne : x ≠ m.activeAgent) :
    (cyclePrevState (switchState m x)).activeAgent = m.activeAgent := by
  have hxs : (lookupMap m.agentConfigs x).isSome = true :=
    (mem_configIDs_iff m x).mp hx
  have hms : switchState m x =
      { m with activeAgent := x,
               agentHistory := removeFirst m.agentHistory x ++ [x] } := by
    simp [switchState, SwitchAgent, switchAgentInternal, hxs]
  set m' := switchState m x with hm'def
  have hconf : configIDs m' = configIDs m := by rw [hms]; rfl
  have hact' : m'.activeAgent = x := by rw [hms]
  have hhist' : histPart m' = removeFirst (histPart m) x ++ [x] := by
    rw [hms, histPart_move m hx]
  have hq_nodup : (histPart m).Nodup := histPart_nodup m h.2.1
  have hxq : x ∉ removeFirst (histPart m) x := not_mem_removeFirst_self x hq_nodup
  have havail : getAvailableAgentIDs m' =
      removeFirst (histPart m) x ++ (m'.activeAgent :: restPart m') := by
    rw [getAvailableAgentIDs, hhist', hact', List.append_assoc]
    rfl
  have hamem : m.activeAgent ∈ configIDs m' := by
    rw [hconf]; exact h.2.2.2.2
  by_cases hxh : x ∈ m.agentHistory
  · -- the switch target was already in the history
    have hxhp : x ∈ histPart m := (mem_histPart m x).mpr ⟨hxh, hx⟩
    obtain ⟨J, hJ, hnJ⟩ := histPart_decomp h
    have hxJ : x ∈ J := by
      rw [hJ] at hxhp
      rcases List.mem_append.mp hxhp with hmem | hmem
      · exact hmem
      · exact absurd (List.mem_singleton.mp hmem) hne
    have hq : removeFirst (histPart m) x = removeFirst J x ++ [m.activeAgent] := by
      rw [hJ, removeFirst_append, if_pos hxJ]
    have hq1 : 1 ≤ (removeFirst (histPart m) x).length := by
      rw [hq]; simp
    refine cyclePrev_restore havail (hact' ▸ hxq) hq1 ?_ hamem
    rw [hq]
    have hlq : (removeFirst J x ++ [m.activeAgent]).length =
        (removeFirst J x).length + 1 := by simp
    rw [hlq, Nat.add_sub_cancel]
    exact getD_snoc_length _ _ _
  · -- the switch target is new: the history part is untouched
    have hxhp : x ∉ histPart m := fun hmem => hxh ((mem_histPart m x).mp hmem).1
    have hq : removeFirst (histPart m) x = histPart m :=
      removeFirst_of_not_mem _ _ hxhp
    have hq1 : 1 ≤ (removeFirst (histPart m) x).length := by
      rw [hq]
      exact List.length_pos.mpr (histPart_ne_nil h)
    refine cyclePrev_restore havail (hact' ▸ hxq) hq1 ?_ hamem
    rw [hq]
    exact histPart_getD_last h

/-! ### Remaining helper lemmas -/

theorem removeFirst_eq_filter_ne {l : List String} (a : String) (h : l.Nodup) :
    removeFirst l a = l.filter (fun z => !(decide (z = a))) := by
  induction l with
  | nil => rfl
  | cons x xs ih =>
    rcases List.nodup_cons.mp h with ⟨hx, hxs⟩
    by_cases hxa : x = a
    · subst hxa
      rw [removeFirst_cons_self, List.filter_cons, if_neg (by simp)]
      refine (List.filter_eq_self.mpr ?_).symm
      intro z hz
      have hzx : z ≠ x := fun he => hx (he ▸ hz)
      simp [hzx]
    · rw [removeFirst, if_neg hxa, List.filter_cons, if_pos (by simp [hxa]),
        ih hxs]

theorem getAgentInstance_frame {W : Type} (factory : AgentCfg → Except String W)
    (m : Manager W) (agentID : String) :
    (getAgentInstance factory m agentID).2.1.activeAgent = m.activeAgent ∧
    (getAgentInstance factory m agentID).2.1.agentHistory = m.agentHistory ∧
    (getAgentInstance factory m agentID).2.1.agentConfigs = m.agentConfigs := by
  unfold getAgentInstance
  repeat' split
  all_goals exact ⟨rfl, rfl, rfl⟩

theorem runAsDispatch_frame {W E : Type} (factory : AgentCfg → Except String W)
    (runner : W → String → Except String E) (m : Manager W)
    (sid content : String) :
    (runAsDispatch factory runner m sid content).2.activeAgent = m.activeAgent ∧
    (runAsDispatch factory runner m sid content).2.agentHistory = m.agentHistory := by
  obtain ⟨hf1, hf2, -⟩ := getAgentInstance_frame factory m sid
  unfold runAsDispatch
  split
  · rename_i e m' snd heq2
    rw [heq2] at hf1 hf2
    exact ⟨hf1, hf2⟩
  · rename_i agt m' snd heq2
    rw [heq2] at hf1 hf2
    cases runner agt content with
    | error e => exact ⟨hf1, hf2⟩
    | ok ev => exact ⟨hf1, hf2⟩

theorem inv_switchInternal {W : Type} (m : Manager W) (agentID : String)
    (h : Inv m) : Inv (switchAgentInternal m agentID).2 := by
  unfold switchAgentInternal
  by_cases hc : (lookupMap m.agentConfigs agentID).isSome = true
  · rw [if_pos hc]
    refine ⟨?_, fun _ => by simp [List.getLast?_concat]⟩
    refine List.Nodup.append (removeFirst_nodup agentID h.1)
      (List.nodup_singleton agentID) ?_
    intro z hz hz'
    rw [List.mem_singleton] at hz'
    subst hz'
    exact not_mem_removeFirst_self z h.1 hz
  · rw [if_neg hc]
    exact h

/-! ### Claim theorems -/

/-- C1: for every parent agent id, sub-agent id and content, the delegation
operation `RunAs(parentAgentID, subAgentID, content)` leaves both the active
agent id and the agent history of the session's `Manager` unchanged — it never
invokes the switch logic, on any of its paths (unknown parent, disallowed
sub-agent, worker construction failure, run failure, success). -/
theorem runAs_frame {W E : Type} (factory : AgentCfg → Except String W)
    (runner : W → String → Except String E) (m : Manager W)
    (parentAgentID subAgentID content : String) :
    (RunAs factory runner m parentAgentID subAgentID content).2.activeAgent =
      m.activeAgent ∧
    (RunAs factory runner m parentAgentID subAgentID content).2.agentHistory =
      m.agentHistory := by
  unfold RunAs
  split
  · exact ⟨rfl, rfl⟩
  · rename_i parentCfg heq
    by_cases hc : subAgentID = ""
    · by_cases hs : parentCfg.defaultSubagent ∈ parentCfg.allowedSubagents
      · obtain ⟨hd1, hd2⟩ :=
          runAsDispatch_frame factory runner m parentCfg.defaultSubagent content
        simp [hc, hs, hd1, hd2]
      · simp [hc, hs]
    · by_cases hs : subAgentID ∈ parentCfg.allowedSubagents
      · obtain ⟨hd1, hd2⟩ :=
          runAsDispatch_frame factory runner m subAgentID content
        simp [hc, hs, hd1, hd2]
      · simp [hc, hs]

/-- C2: `SwitchAgent(agentID)` fails with `AgentNotFound` exactly when the id
is not a configured descriptor key; on failure the manager state is unchanged;
on success the call succeeds with the active agent set to `agentID` and, for a
duplicate-free history, the history equals the old history with every
occurrence of `agentID` removed and `agentID` appended at the tail. -/
theorem switchAgent_spec {W : Type} (m : Manager W) (agentID : String) :
    ((SwitchAgent m agentID).1 = .error .agentNotFound ↔
      lookupMap m.agentConfigs agentID = none) ∧
    (lookupMap m.agentConfigs agentID = none → (SwitchAgent m agentID).2.1 = m) ∧
    ((lookupMap m.agentConfigs agentID).isSome = true →
      (SwitchAgent m agentID).1 = .ok () ∧
      (SwitchAgent m agentID).2.1.activeAgent = agentID ∧
      (m.agentHistory.Nodup →
        (SwitchAgent m agentID).2.1.agentHistory =
          m.agentHistory.filter (fun z => !(decide (z = agentID))) ++ [agentID])) := by
  by_cases hc : (lookupMap m.agentConfigs agentID).isSome = true
  · have hnn : ¬ lookupMap m.agentConfigs agentID = none := by
      intro hn
      rw [hn] at hc
      simp at hc
    refine ⟨?_, fun hn => absurd hn hnn, fun _ => ?_⟩
    · simp [SwitchAgent, switchAgentInternal, hc, hnn]
    · refine ⟨?_, ?_, fun hnd => ?_⟩
      · simp [SwitchAgent, switchAgentInternal, hc]
      · simp [SwitchAgent, switchAgentInternal, hc]
      · simp only [SwitchAgent, switchAgentInternal, if_pos hc]
        rw [removeFirst_eq_filter_ne agentID hnd]
  · have hn : lookupMap m.agentConfigs agentID = none := by
      cases hl : lookupMap m.agentConfigs agentID with
      | none => rfl
      | some v => rw [hl] at hc; simp at hc
    refine ⟨?_, fun _ => ?_, fun hs => absurd hs hc⟩
    · simp [SwitchAgent, switchAgentInternal, hn]
    · simp [SwitchAgent, switchAgentInternal, hn]

/-- C2 witness: a successful and a failing switch on a concrete manager. -/
theorem switchAgent_spec_witness :
    (SwitchAgent mAB "b").1 = .ok () ∧
    (SwitchAgent mAB "b").2.1.activeAgent = "b" ∧
    (SwitchAgent mAB "b").2.1.agentHistory = ["a", "b"] ∧
    (SwitchAgent mAB "ghost").1 = .error .agentNotFound ∧
    (SwitchAgent mAB "ghost").2.1 = mAB := by
  have h1 := (switchAgent_spec mAB "b").2.2 (by decide)
  have h2 := (switchAgent_spec mAB "ghost").2.1 (by decide)
  refine ⟨h1.1, h1.2.1, ?_, ?_, h2⟩
  · rw [h1.2.2 (by decide)]
    decide
  · exact ((switchAgent_spec mAB "ghost").1).mpr (by decide)

/-- C3: the predicate "the history has no duplicates and, when non-empty, its
last element is the active id" holds after `NewManager` (in the fallback case
unconditionally; in the load-success case provided the persisted record
satisfies it, as the spec's data model stipulates) and is preserved by
`SwitchAgent`, `CycleNext` and `CyclePrevious`, whether they succeed or
fail. -/
theorem agent_state_invariant {W : Type} :
    (∀ (configs : List (String × AgentCfg)) (m' : Manager W),
      NewManager configs none = .ok m' → Inv m') ∧
    (∀ (configs : List (String × AgentCfg)) (a : String) (hist : List String)
      (m' : Manager W), hist.Nodup → (hist ≠ [] → hist.getLast? = some a) →
      NewManager configs (some (a, hist)) = .ok m' → Inv m') ∧
    (∀ (m : Manager W) (agentID : String),
      Inv m → Inv (SwitchAgent m agentID).2.1) ∧
    (∀ m : Manager W, Inv m → Inv (cycleNextState m)) ∧
    (∀ m : Manager W, Inv m → Inv (cyclePrevState m)) := by
  refine ⟨?_, ?_, ?_, ?_, ?_⟩
  · intro configs m' hok
    unfold NewManager at hok
    by_cases he : configs.isEmpty
    · rw [if_pos he] at hok
      cases hok
    · rw [if_neg he] at hok
      simp only [Except.ok.injEq] at hok
      subst hok
      exact ⟨List.nodup_singleton _, fun _ => rfl⟩
  · intro configs a hist m' hnd hlast hok
    unfold NewManager at hok
    by_cases he : configs.isEmpty
    · rw [if_pos he] at hok
      cases hok
    · rw [if_neg he] at hok
      simp only [Except.ok.injEq] at hok
      subst hok
      exact ⟨hnd, hlast⟩
  · intro m agentID h
    exact inv_switchInternal m agentID h
  · intro m h
    rw [cycleNextState, CycleNext]
    by_cases hle : (getAvailableAgentIDs m).length ≤ 1
    · simpa [hle]
    · simp only [if_neg hle]
      exact inv_switchInternal m _ h
  · intro m h
    rw [cyclePrevState, CyclePrevious]
    by_cases hle : (getAvailableAgentIDs m).length ≤ 1
    · simpa [hle]
    · simp only [if_neg hle]
      exact inv_switchInternal m _ h

/-- C3 witness: the invariant holds at concrete states produced by
construction, switching and cycling. -/
theorem agent_state_invariant_witness :
    Inv (SwitchAgent mAB "b").2.1 ∧ Inv (cycleNextState mABC) ∧
    Inv (cyclePrevState mABC) := by
  have h := agent_state_invariant (W := Nat)
  exact ⟨h.2.2.1 mAB "b" (by decide), h.2.2.2.1 mABC (by decide),
         h.2.2.2.2 mABC (by decide)⟩

/-- C4 counterexample: at a concrete manager, `SwitchAgent "b"` is accepted
(returns success and switches the active agent) yet performs no Session Store
update call at all, contradicting "persisted … on every accepted SwitchAgent
(synchronously, before the call returns)". -/
theorem switchAgent_no_persist_cex :
    (SwitchAgent mAB "b").1 = .ok () ∧
    (SwitchAgent mAB "b").2.1.activeAgent = "b" ∧
    (SwitchAgent mAB "b").2.2 = [] := by
  exact ⟨rfl, rfl, rfl⟩

/-- C4 (amended): the Session Agent State is persisted only before a `Run`
dispatch — one `UpdateAgent` call carrying the current active id and history —
while an accepted `SwitchAgent` performs no store call; a persistence failure
during `Run` changes neither the run's outcome nor the manager state
(surfaced only as a logged warning). -/
theorem persist_only_on_run {W E : Type} (factory : AgentCfg → Except String W)
    (runner : W → String → Except String E) (m : Manager W)
    (agentID content : String) :
    (SwitchAgent m agentID).2.2 = [] ∧
    (∀ saveOk : Bool,
      Run factory runner saveOk m content = Run factory runner true m content) ∧
    (∀ (saveOk : Bool) (w : W), (CurrentAgent factory m).1 = .ok w →
      (Run factory runner saveOk m content).2.2 =
        [⟨m.activeAgent, m.agentHistory⟩]) := by
  refine ⟨rfl, ?_, ?_⟩
  · intro saveOk
    unfold Run
    rcases hca : CurrentAgent factory m with ⟨res, m', called⟩
    cases res with
    | error e => rfl
    | ok agt =>
      cases runner agt content with
      | error e => rfl
      | ok ev => rfl
  · intro saveOk w hok
    obtain ⟨hf1, hf2, -⟩ := getAgentInstance_frame factory m m.activeAgent
    unfold Run
    rcases hca : CurrentAgent factory m with ⟨res, m', called⟩
    rw [hca] at hok
    have hact : m'.activeAgent = m.activeAgent := by
      rw [CurrentAgent] at hca
      rw [hca] at hf1
      exact hf1
    have hhist : m'.agentHistory = m.agentHistory := by
      rw [CurrentAgent] at hca
      rw [hca] at hf2
      exact hf2
    cases res with
    | error e => simp at hok
    | ok agt =>
      simp only [saveSessionAgentState, hact, hhist]
      split
      · rfl
      · rfl

/-- C4 witness: the amended behaviour at a concrete manager and stores. -/
theorem persist_only_on_run_witness :
    (SwitchAgent mAB "b").2.2 = ([] : List SaveCall) ∧
    Run (fun _ => .ok 7) (fun w _ => .ok w) false mAB "hi" =
      Run (fun _ => .ok 7) (fun w _ => .ok w) true mAB "hi" ∧
    (Run (fun _ => .ok 7) (fun w _ => .ok w) false mAB "hi").2.2 =
      [⟨"a", ["a"]⟩] := by
  have h := persist_only_on_run (fun _ => .ok 7) (fun w _ => .ok (w : Nat))
    mAB "b" "hi"
  exact ⟨h.1, h.2.1 false, h.2.2 false 7 rfl⟩

/-- C5: the cycling order is not a function of `(agentHistory, configured id
set)`: two managers denoting the same configured map (the association lists
are permutations of each other) with identical histories produce different
`getAvailableAgentIDs`, and the not-in-history tail follows the map iteration
order rather than lexicographic order. -/
theorem cycleOrder_map_order_dependent :
    List.Perm (⟨[("b", cfg0), ("a", cfg0)], [], "a", []⟩ : Manager Nat).agentConfigs
      (⟨[("a", cfg0), ("b", cfg0)], [], "a", []⟩ : Manager Nat).agentConfigs ∧
    (⟨[("b", cfg0), ("a", cfg0)], [], "a", []⟩ : Manager Nat).agentHistory =
      (⟨[("a", cfg0), ("b", cfg0)], [], "a", []⟩ : Manager Nat).agentHistory ∧
    getAvailableAgentIDs (⟨[("b", cfg0), ("a", cfg0)], [], "a", []⟩ : Manager Nat) =
      ["b", "a"] ∧
    getAvailableAgentIDs (⟨[("a", cfg0), ("b", cfg0)], [], "a", []⟩ : Manager Nat) =
      ["a", "b"] ∧
    (["b", "a"] : List String) ≠ ["a", "b"] := by
  refine ⟨by decide, rfl, by decide, by decide, by decide⟩

/-- C6 counterexample: with the history invariant alone the claimed laws fail.
With three configured agents and an empty history (the state a fresh session
row produces), three `CycleNext` calls land on `"c"`, not the starting
`"a"`, and `CyclePrevious` right after `CycleNext` also lands on `"c"`; with a
persisted active id `"z"` that is no longer configured, two `CycleNext` calls
land on `"a"` ≠ `"z"`; and after a switch to the already-active agent,
`CyclePrevious` moves away instead of staying. -/
theorem cycle_closure_cex :
    Inv mEmptyHist ∧ mEmptyHist.agentConfigs.length = 3 ∧
    mEmptyHist.activeAgent = "a" ∧
    ((cycleNextState^[3]) mEmptyHist).activeAgent = "c" ∧
    (cyclePrevState (cycleNextState mEmptyHist)).activeAgent = "c" ∧
    Inv mStale ∧ mStale.agentConfigs.length = 2 ∧ mStale.activeAgent = "z" ∧
    ((cycleNextState^[2]) mStale).activeAgent = "a" ∧
    Inv mAB ∧ mAB.activeAgent = "a" ∧
    (cyclePrevState (switchState mAB "a")).activeAgent = "b" := by
  decide

/-- C6 (amended): with N configured agents (pairwise-distinct ids), from any
state satisfying the history invariant whose history is non-empty and whose
active id is configured, N `CycleNext` calls return to the starting active id;
`CyclePrevious` immediately after a `CycleNext` restores the previous active
id, as it does immediately after a `SwitchAgent` to any configured id other
than the current active one. -/
theorem cycle_closure_and_inverse {W : Type} (m : Manager W)
    (hk : (configIDs m).Nodup) (hh : m.agentHistory.Nodup)
    (hne : m.agentHistory ≠ [])
    (hlast : m.agentHistory.getLast? = some m.activeAgent)
    (hact : m.activeAgent ∈ configIDs m) :
    (cycleNextState^[m.agentConfigs.length] m).activeAgent = m.activeAgent ∧
    (cyclePrevState (cycleNextState m)).activeAgent = m.activeAgent ∧
    (∀ x ∈ configIDs m, x ≠ m.activeAgent →
      (cyclePrevState (switchState m x)).activeAgent = m.activeAgent) := by
  have hg : GoodState m := ⟨hk, hh, hne, hlast, hact⟩
  exact ⟨cycle_closure_active hg, cyclePrev_cycleNext_active hg,
         fun x hx hxne => cyclePrev_switch_active hg hx hxne⟩

/-- C6 witness: the amended laws at a concrete three-agent manager. -/
theorem cycle_closure_and_inverse_witness :
    ((cycleNextState^[3]) mABC).activeAgent = "a" ∧
    (cyclePrevState (cycleNextState mABC)).activeAgent = "a" ∧
    (cyclePrevState (switchState mABC "c")).activeAgent = "a" := by
  have h := cycle_closure_and_inverse mABC (by decide) (by decide) (by decide)
    (by decide) (by decide)
  exact ⟨h.1, h.2.1, h.2.2 "c" (by decide) (by decide)⟩

/-- C7 counterexample: when the loaded persisted active id (`"ghost"`) is not
among the supplied descriptors, `NewManager` adopts it unchanged instead of
falling back to the default selection. -/
theorem newManager_keeps_unknown_active_cex :
    NewManager (W := Nat) [("a", cfg0)] (some ("ghost", ["ghost"])) =
      .ok ⟨[("a", cfg0)], [], "ghost", ["ghost"]⟩ ∧
    ("ghost" : String) ∉ configIDs (⟨[("a", cfg0)], [], "ghost", ["ghost"]⟩ : Manager Nat) ∧
    ("ghost" : String) ≠ "coder" ∧ ("ghost" : String) ≠ "a" := by
  refine ⟨rfl, by decide, by decide, by decide⟩

/-- C7 (amended): `NewManager` falls back to the default selection (`"coder"`
when configured, otherwise the first id in map iteration order, with the
history seeded to that single id) only when no persisted state can be loaded;
a successfully loaded state is adopted as-is, even when its active id is not
among the supplied descriptors. -/
theorem newManager_fallback_spec {W : Type}
    (configs : List (String × AgentCfg)) (hne : configs ≠ []) :
    (∀ (a : String) (hist : List String),
      NewManager (W := W) configs (some (a, hist)) = .ok ⟨configs, [], a, hist⟩) ∧
    NewManager (W := W) configs none =
      .ok ⟨configs, [],
        (if (lookupMap configs "coder").isSome then "coder"
         else (configs.headD ("coder", cfg0)).1),
        [(if (lookupMap configs "coder").isSome then "coder"
          else (configs.headD ("coder", cfg0)).1)]⟩ := by
  cases configs with
  | nil => exact absurd rfl hne
  | cons c cs => exact ⟨fun a hist => rfl, rfl⟩

/-- C7 witness: a loaded state is adopted as-is, and on load failure the
`"coder"` default is chosen when configured. -/
theorem newManager_fallback_spec_witness :
    NewManager (W := Nat) [("x", cfg0), ("coder", cfg0)]
        (some ("x", ["x"])) =
      .ok ⟨[("x", cfg0), ("coder", cfg0)], [], "x", ["x"]⟩ ∧
    NewManager (W := Nat) [("x", cfg0), ("coder", cfg0)] none =
      .ok ⟨[("x", cfg0), ("coder", cfg0)], [], "coder", ["coder"]⟩ := by
  have h := newManager_fallback_spec (W := Nat)
    [("x", cfg0), ("coder", cfg0)] (by decide)
  exact ⟨h.1 "x" ["x"], h.2⟩

/-- C8: construction is not deterministic in the inputs-as-maps: on load
failure without a `"coder"` descriptor, two association lists that denote the
same configured map (they are permutations) make `NewManager` pick different
active agents — the choice follows Go's randomized map iteration order. -/
theorem newManager_fallback_order_dependent :
    List.Perm [("alpha", cfg0), ("beta", cfg0)] [("beta", cfg0), ("alpha", cfg0)] ∧
    NewManager (W := Nat) [("alpha", cfg0), ("beta", cfg0)] none =
      .ok ⟨[("alpha", cfg0), ("beta", cfg0)], [], "alpha", ["alpha"]⟩ ∧
    NewManager (W := Nat) [("beta", cfg0), ("alpha", cfg0)] none =
      .ok ⟨[("beta", cfg0), ("alpha", cfg0)], [], "beta", ["beta"]⟩ ∧
    ("alpha" : String) ≠ "beta" := by
  exact ⟨by decide, rfl, rfl, by decide⟩

/-- C9: worker resolution is reference-stable and at-most-once: a cached
worker is returned unchanged without calling the factory; a successful
construction stores the worker so that a second resolution returns the
identical value with no factory call; a factory failure caches nothing
(the state is returned unchanged, so a retry reaches the factory again);
and `CurrentAgent` is exactly this resolution applied to the active id. -/
theorem worker_cache_spec {W : Type} (factory : AgentCfg → Except String W)
    (m : Manager W) (agentID : String) :
    (∀ w, lookupMap m.agents agentID = some w →
      getAgentInstance factory m agentID = (.ok w, m, false)) ∧
    (∀ cfg w, lookupMap m.agents agentID = none →
      lookupMap m.agentConfigs agentID = some cfg → factory cfg = .ok w →
      getAgentInstance factory m agentID =
        (.ok w, { m with agents := m.agents ++ [(agentID, w)] }, true) ∧
      getAgentInstance factory
          { m with agents := m.agents ++ [(agentID, w)] } agentID =
        (.ok w, { m with agents := m.agents ++ [(agentID, w)] }, false)) ∧
    (∀ cfg e, lookupMap m.agents agentID = none →
      lookupMap m.agentConfigs agentID = some cfg → factory cfg = .error e →
      getAgentInstance factory m agentID = (.error (.workerFailed e), m, true)) ∧
    CurrentAgent factory m = getAgentInstance factory m m.activeAgent := by
  refine ⟨?_, ?_, ?_, rfl⟩
  · intro w hw
    unfold getAgentInstance
    rw [hw]
  · intro cfg w hnone hcfg hfac
    constructor
    · simp [getAgentInstance, hnone, hcfg, hfac]
    · simp [getAgentInstance, lookupMap_append_self m.agents agentID w hnone]
  · intro cfg e hnone hcfg hfac
    simp [getAgentInstance, hnone, hcfg, hfac]

/-- C9 witness: the cache behaviour on concrete managers and factories. -/
theorem worker_cache_spec_witness :
    getAgentInstance (fun _ => .ok 7) (⟨[("a", cfg0)], [("a", 5)], "a", ["a"]⟩ : Manager Nat) "a" =
      (.ok 5, ⟨[("a", cfg0)], [("a", 5)], "a", ["a"]⟩, false) ∧
    getAgentInstance (fun _ => .ok 7) (⟨[("a", cfg0)], [], "a", ["a"]⟩ : Manager Nat) "a" =
      (.ok 7, ⟨[("a", cfg0)], [("a", 7)], "a", ["a"]⟩, true) ∧
    getAgentInstance (fun _ => .ok 7) (⟨[("a", cfg0)], [("a", 7)], "a", ["a"]⟩ : Manager Nat) "a" =
      (.ok 7, ⟨[("a", cfg0)], [("a", 7)], "a", ["a"]⟩, false) ∧
    getAgentInstance (fun _ => .error "boom") (⟨[("a", cfg0)], [], "a", ["a"]⟩ : Manager Nat) "a" =
      (.error (.workerFailed "boom"), ⟨[("a", cfg0)], [], "a", ["a"]⟩, true) := by
  refine ⟨?_, ?_, ?_, ?_⟩
  · exact (worker_cache_spec (fun _ => .ok 7)
      (⟨[("a", cfg0)], [("a", 5)], "a", ["a"]⟩ : Manager Nat) "a").1 5 rfl
  · exact ((worker_cache_spec (fun _ => .ok 7)
      (⟨[("a", cfg0)], [], "a", ["a"]⟩ : Manager Nat) "a").2.1 cfg0 7 rfl rfl rfl).1
  · exact ((worker_cache_spec (fun _ => .ok 7)
      (⟨[("a", cfg0)], [], "a", ["a"]⟩ : Manager Nat) "a").2.1 cfg0 7 rfl rfl rfl).2
  · exact (worker_cache_spec (fun _ => .error "boom")
      (⟨[("a", cfg0)], [], "a", ["a"]⟩ : Manager Nat) "a").2.2.1 cfg0 "boom" rfl rfl rfl

/-- C10: `Cancel` and `IsSessionBusy` are not read-only on the worker map:
when the active agent's worker is not yet instantiated, each of them invokes
the factory, stores the constructed worker in the map, and only then cancels
it (respectively reads its busy state). -/
theorem cancel_busy_instantiate {W : Type} (factory : AgentCfg → Except String W)
    (busy : W → Bool) (m : Manager W) (cfg : AgentCfg) (w : W)
    (hnone : lookupMap m.agents m.activeAgent = none)
    (hcfg : lookupMap m.agentConfigs m.activeAgent = some cfg)
    (hfac : factory cfg = .ok w) :
    Cancel factory m =
      ({ m with agents := m.agents ++ [(m.activeAgent, w)] }, some w, true) ∧
    IsSessionBusy factory busy m =
      (busy w, { m with agents := m.agents ++ [(m.activeAgent, w)] }, true) ∧
    lookupMap ({ m with agents := m.agents ++ [(m.activeAgent, w)] } : Manager W).agents
      m.activeAgent = some w := by
  have hgi : getAgentInstance factory m m.activeAgent =
      (.ok w, { m with agents := m.agents ++ [(m.activeAgent, w)] }, true) := by
    simp [getAgentInstance, hnone, hcfg, hfac]
  refine ⟨?_, ?_, lookupMap_append_self m.agents m.activeAgent w hnone⟩
  · unfold Cancel
    rw [hgi]
  · unfold IsSessionBusy
    rw [hgi]

/-- C10 witness: on a concrete manager with no instantiated workers, `Cancel`
and `IsSessionBusy` construct and store the active agent's worker. -/
theorem cancel_busy_instantiate_witness :
    Cancel (fun _ => .ok 7) (⟨[("a", cfg0)], [], "a", ["a"]⟩ : Manager Nat) =
      (⟨[("a", cfg0)], [("a", 7)], "a", ["a"]⟩, some 7, true) ∧
    IsSessionBusy (fun _ => .ok 7) (fun _ => true)
        (⟨[("a", cfg0)], [], "a", ["a"]⟩ : Manager Nat) =
      (true, ⟨[("a", cfg0)], [("a", 7)], "a", ["a"]⟩, true) := by
  have h := cancel_busy_instantiate (fun _ => .ok 7) (fun _ => true)
    (⟨[("a", cfg0)], [], "a", ["a"]⟩ : Manager Nat) cfg0 7 rfl rfl rfl
  exact ⟨h.1, h.2.1⟩

end Tulpa
